import Mathlib

/-!
Shallow embedding of `src/diceware.py` (classes `Dice` and `DicewareWordList`,
value type `DicewarePassword`).

Modelling conventions:
* Python byte values are `Nat`; the entropy source `os.urandom` is an explicit
  finite list of byte draws, threaded through the functions that consume it.
  A function that would keep waiting for further entropy (the rejection loop
  of `Dice.roll` on an exhausted stream) returns `none`.
* Python strings are `List Char`; `str.strip`, the two regular expressions
  `PARSE_OPTION` / `PARSE_WORD` and `str(n)` are translated character by
  character below.
* The dictionary `self.words` is an association list with Python `dict`
  semantics (assignment replaces the value of an existing key in place,
  otherwise appends; lookup returns the stored value or `none`).
* Python attribute `None` becomes `Option.none`; truthiness tests
  (`not self.words`, `not self.dice`, falsy lookup results) are spelled out.
* The unbounded recursion of `DicewareWordList._verify` is modelled with an
  explicit fuel parameter counting nested `_verify` activations; `verify`
  runs it with fuel `recursionLimit`, a stand-in for CPython's finite
  recursion limit (any value large enough for the runs that terminate gives
  the same result, see `verifyDepth_spec` below), and `VerifyResult.outOfFuel`
  models the `RecursionError` that CPython raises when the recursion never
  reaches the key length.
-/

/-- Python `str.isspace` characters of the regex class `\s` and `str.strip`
(ASCII range, which is all the word-list format uses): space, tab, newline,
carriage return, vertical tab, form feed. -/
def pyIsSpace (c : Char) : Bool :=
  c == ' ' || c == '\t' || c == '\n' || c == '\r' || c == Char.ofNat 11 || c == Char.ofNat 12

/-- Python `line.strip()`: remove leading and trailing whitespace. -/
def pyStrip (l : List Char) : List Char :=
  ((l.dropWhile pyIsSpace).reverse.dropWhile pyIsSpace).reverse

/-- Python `int(c)` for a single digit character (`ord(c) - ord('0')`). -/
def digitVal (c : Char) : Nat := c.toNat - 48

/-- Python `int(s)` for a non-empty digit string. -/
def digitsToNat (l : List Char) : Nat := l.foldl (fun a c => a * 10 + digitVal c) 0

/-- Python `str(n)` for a natural number: its decimal digit characters. -/
def natDigits (n : Nat) : List Char := Nat.toDigits 10 n

/-- The character `'0' + s`, the single digit character of `s ≤ 9`. -/
def digitChar (s : Nat) : Char := Char.ofNat (48 + s)

/-- Lowercasing used to model the `re.I` (case-insensitive) flag. -/
def toLowerList (l : List Char) : List Char := l.map Char.toLower

/-- Regex `PARSE_WORD = ^(\d+)\s+(.*?)$` applied to a stripped line:
a maximal non-empty run of digits (group 1), a non-empty run of whitespace,
and the remainder of the line (group 2). -/
def parse_word (l : List Char) : Option (List Char × List Char) :=
  let ds := l.takeWhile Char.isDigit
  let r1 := l.dropWhile Char.isDigit
  let ws := r1.takeWhile pyIsSpace
  let r2 := r1.dropWhile pyIsSpace
  if ds.isEmpty || ws.isEmpty then none else some (ds, r2)

/-- Tail of `PARSE_OPTION` after the keyword: `\s*[=:]\s*(\d+)$`.
Returns the directive kind together with the decimal value of group 2. -/
def parseOptionRest (isDice : Bool) (rest : List Char) : Option (Bool × Nat) :=
  match rest.dropWhile pyIsSpace with
  | [] => none
  | c :: r2 =>
    if c == '=' || c == ':' then
      let r3 := r2.dropWhile pyIsSpace
      if r3.isEmpty then none
      else if r3.all Char.isDigit then some (isDice, digitsToNat r3)
      else none
    else none

/-- Regex `PARSE_OPTION = ^(D(?:ICE)|S(?:IDES))\s*[=:]\s*(\d+)$` with `re.I`,
applied to a stripped line. `true` in the result means the `DICE` directive
(the code dispatches on the first letter of group 1), `false` means `SIDES`. -/
def parse_option (l : List Char) : Option (Bool × Nat) :=
  if toLowerList (l.take 4) = ("dice").toList then parseOptionRest true (l.drop 4)
  else if toLowerList (l.take 5) = ("sides").toList then parseOptionRest false (l.drop 5)
  else none

/-- Python class `Dice`: `num_sides` and the derived `ceiling`. -/
structure Dice where
  num_sides : Nat
  ceiling : Nat
deriving DecidableEq

/-- `Dice.__init__(num_sides)`: the `assert(num_sides >= 2 and num_sides <= 20)`
is modelled as returning `none` (an `AssertionError` aborts construction);
otherwise `ceiling = int(256 / num_sides) * num_sides - 1`. -/
def mkDice (n : Nat) : Option Dice :=
  if 2 ≤ n ∧ n ≤ 20 then some { num_sides := n, ceiling := (256 / n) * n - 1 } else none

/-- The `ceiling` of the die successfully constructed for `n` sides
(`0` for a side count that fails the construction assertion). -/
def ceilingOf (n : Nat) : Nat := ((mkDice n).map Dice.ceiling).getD 0

/-- `Dice.roll()`: draw bytes until one is `≤ ceiling`, then return
`(byte % num_sides) + 1` together with the rest of the entropy stream.
`none` models an exhausted finite stream (the loop keeps waiting on
`os.urandom`). -/
def Dice.roll (d : Dice) : List Nat → Option (Nat × List Nat)
  | [] => none
  | b :: rest => if b ≤ d.ceiling then some (b % d.num_sides + 1, rest) else d.roll rest

/-- Association-list model of a Python `dict` keyed by roll strings. -/
abbrev Dict : Type := List (List Char × List Char)

/-- Python `self.words[roll] = word`: replace the value of an existing key in
place, otherwise append the new binding. -/
def dictInsert (m : Dict) (k v : List Char) : Dict :=
  if m.any (fun p => p.1 == k) then
    m.map (fun p => if p.1 == k then (k, v) else p)
  else m ++ [(k, v)]

/-- Python `self.words.get(roll, None)`. -/
def dictGet (m : Dict) (k : List Char) : Option (List Char) :=
  (m.find? (fun p => p.1 == k)).map (fun p => p.2)

/-- Python truthiness of a `dict.get` result: `None` and `''` are falsy. -/
def falsy : Option (List Char) → Bool
  | none => true
  | some [] => true
  | some (_ :: _) => false

/-- Parser state of `DicewareWordList.load`: the configuration fields, the
dictionary being built, and the local `found_words` flag. -/
structure LoadState where
  num_dice : Nat
  dice_sides : Nat
  words : Dict
  found_words : Bool
deriving DecidableEq

/-- `DicewareWordList._is_valid_roll(roll)`: length is `num_dice` and every
character is a digit whose value lies in `range(1, dice_sides + 1)`. -/
def is_valid_roll (nd sides : Nat) (roll : List Char) : Bool :=
  roll.length == nd && roll.all (fun c => decide (1 ≤ digitVal c) && decide (digitVal c ≤ sides))

/-- One iteration of the `for line in wordlist` loop in
`DicewareWordList.load`: strip, skip blank lines, try `PARSE_WORD` (setting
`found_words` and storing valid roll keys), and then — only while
`found_words` is still false — try `PARSE_OPTION` and update the
configuration. -/
def processLine (st : LoadState) (raw : List Char) : LoadState :=
  let line := pyStrip raw
  if line.isEmpty then st
  else
    let st1 :=
      match parse_word line with
      | some (roll, w) =>
        let st' := { st with found_words := true }
        if is_valid_roll st'.num_dice st'.dice_sides roll then
          { st' with words := dictInsert st'.words roll w }
        else st'
      | none => st
    if st1.found_words then st1
    else
      match parse_option line with
      | some (isDice, v) =>
        if isDice then { st1 with num_dice := v } else { st1 with dice_sides := v }
      | none => st1

/-- Object state of a `DicewareWordList` instance. -/
structure WordListState where
  num_dice : Nat
  dice_sides : Nat
  dice : Option Dice
  words : Option Dict
deriving DecidableEq

/-- The class-attribute defaults: `dice_sides = 6`, `num_dice = 5`,
`dice = None`, `words = None`. -/
def initialState : WordListState :=
  { num_dice := 5, dice_sides := 6, dice := none, words := none }

/-- State at the top of `load`: `self.words = {}`, `found_words = False`,
configuration carried over from the object. -/
def initLoad (st : WordListState) : LoadState :=
  { num_dice := st.num_dice, dice_sides := st.dice_sides, words := [], found_words := false }

/-- The parsing loop of `load` over the whole line sequence. -/
def loadScan (st : WordListState) (lines : List (List Char)) : LoadState :=
  lines.foldl processLine (initLoad st)

/-- `DicewareWordList.load(wordlist)`: run the scan, then construct
`self.dice = Dice(self.dice_sides)`; `none` models the `AssertionError`
aborting the load when the final `dice_sides` is outside `2..20`. -/
def load (st : WordListState) (lines : List (List Char)) : Option WordListState :=
  let fin := loadScan st lines
  (mkDice fin.dice_sides).map fun d =>
    { num_dice := fin.num_dice, dice_sides := fin.dice_sides, dice := some d,
      words := some fin.words }

/-- Result of `DicewareWordList.verify`: success, the
`'Word missing for dice roll "<roll>".'` exception, the
`'No word list has been loaded.'` exception, or exhaustion of the recursion
budget (CPython's `RecursionError`). -/
inductive VerifyResult where
  | ok : VerifyResult
  | missing : List Char → VerifyResult
  | notLoaded : VerifyResult
  | outOfFuel : VerifyResult
deriving DecidableEq

/-- Python `range(1, dice_sides + 1)` as a list: `[1, 2, ..., sides]`. -/
def sidesList (n : Nat) : List Nat := List.range' 1 n

/-- The `for side in range(1, dice_sides + 1)` loop body of
`DicewareWordList._verify(prefix)`: build `roll = prefix + str(side)`; at the
full key length test the dictionary, otherwise recurse (through the supplied
continuation, which carries the remaining recursion budget). The first
non-`ok` outcome propagates, as a raised exception does. -/
def verifyLoop (recurse : List Char → VerifyResult) (nd : Nat) (d : Dict)
    (pre : List Char) : List Nat → VerifyResult
  | [] => .ok
  | side :: rest =>
    let roll := pre ++ natDigits side
    if roll.length = nd then
      if falsy (dictGet d roll) then .missing roll
      else verifyLoop recurse nd d pre rest
    else
      match recurse roll with
      | .ok => verifyLoop recurse nd d pre rest
      | r => r

/-- `DicewareWordList._verify(prefix)` with an explicit budget of nested
activations: entering the body costs one unit of fuel, and fuel `0` is the
`RecursionError` of an exceeded recursion limit. -/
def verifyDepth (nd sides : Nat) (d : Dict) : Nat → List Char → VerifyResult
  | 0, _ => .outOfFuel
  | fuel + 1, pre => verifyLoop (fun roll => verifyDepth nd sides d fuel roll) nd d pre (sidesList sides)

/-- Stand-in for CPython's finite recursion limit (`sys.getrecursionlimit()`,
1000 by default). Any bound that accommodates the configured key length gives
the same `verify` result (`verifyDepth_spec`); a run that exhausts it models a
`RecursionError`. -/
def recursionLimit : Nat := 100

/-- Python truthiness of `not self.words`: `None` or the empty dict. -/
def wordsEmpty (st : WordListState) : Bool :=
  match st.words with
  | none => true
  | some [] => true
  | some (_ :: _) => false

/-- The dictionary of the state (`{}` when `words` is `None`; only used after
the `not self.words` guard has passed). -/
def wordsOf (st : WordListState) : Dict := st.words.getD []

/-- `DicewareWordList.verify()` run with an explicit recursion budget:
raise `notLoaded` if `not self.words`, else run `self._verify('')`. -/
def verifyFuel (st : WordListState) (fuel : Nat) : VerifyResult :=
  if wordsEmpty st then .notLoaded
  else verifyDepth st.num_dice st.dice_sides (wordsOf st) fuel []

/-- `DicewareWordList.verify()` under CPython's default recursion limit. -/
def verify (st : WordListState) : VerifyResult := verifyFuel st recursionLimit

/-- The `DicewarePassword` named tuple. A word is `Option (List Char)`
because `self.words.get(roll)` yields `None` for an absent key. -/
structure DicewarePassword where
  rolls : List (List Char)
  words : List (Option (List Char))
deriving DecidableEq

/-- `DicewareWordList._roll_dice()`: concatenate `str(self.dice.roll())` for
`num_dice` rolls, threading the entropy stream. -/
def rollDice (d : Dice) : Nat → List Nat → Option (List Char × List Nat)
  | 0, s => some ([], s)
  | n + 1, s =>
    match d.roll s with
    | none => none
    | some (r, s') =>
      match rollDice d n s' with
      | none => none
      | some (cs, s'') => some (natDigits r ++ cs, s'')

/-- The list comprehension `[self._roll_dice() for x in range(num_words)]`. -/
def rollsN (d : Dice) (nd : Nat) : Nat → List Nat → Option (List (List Char) × List Nat)
  | 0, s => some ([], s)
  | n + 1, s =>
    match rollDice d nd s with
    | none => none
    | some (k, s') =>
      match rollsN d nd n s' with
      | none => none
      | some (ks, s'') => some (k :: ks, s'')

/-- `DicewareWordList.get_password(num_words)`: return the empty password if
`not self.dice or not self.words`, else roll `num_words` keys and look each
up with `self.words.get`. `none` only models an exhausted entropy stream. -/
def get_password (st : WordListState) (numWords : Nat) (stream : List Nat) :
    Option (DicewarePassword × List Nat) :=
  match st.dice, st.words with
  | some d, some w =>
    if w.isEmpty then some ({ rolls := [], words := [] }, stream)
    else
      match rollsN d st.num_dice numWords stream with
      | none => none
      | some (ks, s') => some ({ rolls := ks, words := ks.map (dictGet w) }, s')
  | _, _ => some ({ rolls := [], words := [] }, stream)

/-- Specification-side enumeration of all roll keys of a given length:
`keysOver sides m` lists `prefix`-free every string `str(s₁) ++ ⋯ ++ str(sₘ)`
with each `sᵢ ∈ range(1, sides + 1)`, most significant position first, in the
traversal order of `_verify`. -/
def keysOver (sides : Nat) : Nat → List (List Char)
  | 0 => [[]]
  | m + 1 => (sidesList sides).flatMap fun s => (keysOver sides m).map fun k => natDigits s ++ k

/-- Outcome of checking a list of keys in order against the dictionary:
`missing` the first key whose lookup is falsy, else `ok`. -/
def specFrom (d : Dict) (keys : List (List Char)) : VerifyResult :=
  match keys.find? (fun k => falsy (dictGet d k)) with
  | some k => .missing k
  | none => .ok

/-- Strict lexicographic order on roll keys (character order, most
significant position first). -/
def keyLt (a b : List Char) : Prop := List.Lex (· < ·) a b

/-- Concrete word-list input used in counterexamples: a `DICE=1`, `SIDES=10`
configuration followed by the single entry `1 a`. -/
def exLines3 : List (List Char) := [("DICE=1").toList, ("SIDES=10").toList, ("1 a").toList]

/-- The state `load` produces from `exLines3`. -/
def exSt3 : WordListState :=
  { num_dice := 1, dice_sides := 10,
    dice := some { num_sides := 10, ceiling := 249 }, words := some [(['1'], ['a'])] }

/-- A dictionary mapping each of the keys `"1", …, "9", "10"` to a word. -/
def entries10 : Dict := (sidesList 10).map fun s => (natDigits s, ['w'])

/-- A ten-sided one-die state whose dictionary covers `"1", …, "9", "10"`. -/
def exSt4 : WordListState :=
  { num_dice := 1, dice_sides := 10,
    dice := some { num_sides := 10, ceiling := 249 }, words := some entries10 }

/-- A one-entry dictionary used by witnesses. -/
def wordsW : Dict := [(['1', '1'], ['a', 'x'])]

/-- A loaded two-dice six-sided state used by witnesses. -/
def stW : WordListState :=
  { num_dice := 2, dice_sides := 6,
    dice := some { num_sides := 6, ceiling := 251 }, words := some wordsW }

/-- The password `get_password stW 1 [0, 1]` produces: the key `"12"` and the
`None` word of its absent dictionary entry. -/
def pW : DicewarePassword := { rolls := [['1', '2']], words := [none] }

/-- `str(s)` of a single-digit number is its one digit character. -/
theorem natDigits_small : ∀ s, s < 10 → natDigits s = [digitChar s] := by decide

/-- `int` of the digit character of `s ≤ 9` recovers `s`. -/
theorem digitVal_digitChar : ∀ s, s < 10 → digitVal (digitChar s) = s := by decide

/-- Digit characters are digits. -/
theorem isDigit_digitChar : ∀ s, s < 10 → (digitChar s).isDigit = true := by decide

/-- Digit characters are ordered like their values. -/
theorem digitChar_lt : ∀ s, s < 10 → ∀ t, t < 10 → s < t → digitChar s < digitChar t := by
  decide

/-- Unfolding of a successful `Dice.roll`: the stream splits into a rejected
prefix (all above `ceiling`), the accepted byte, and the returned remainder. -/
theorem roll_eq (d : Dice) (stream : List Nat) :
    ∀ r rest, d.roll stream = some (r, rest) →
      ∃ pre b, stream = pre ++ b :: rest ∧ (∀ x ∈ pre, d.ceiling < x) ∧ b ≤ d.ceiling ∧
        r = b % d.num_sides + 1 := by
  induction stream with
  | nil => intro r rest h; simp [Dice.roll] at h
  | cons b tail ih =>
    intro r rest h
    by_cases hb : b ≤ d.ceiling
    · rw [Dice.roll, if_pos hb] at h
      obtain ⟨hr, hrest⟩ : b % d.num_sides + 1 = r ∧ tail = rest := by
        simpa using h
      exact ⟨[], b, by simp [hrest], by simp, hb, hr.symm⟩
    · rw [Dice.roll, if_neg hb] at h
      obtain ⟨pre, b', hs, hpre, hb', hr⟩ := ih r rest h
      exact ⟨b :: pre, b', by simp [hs], by
        intro x hx
        rcases List.mem_cons.mp hx with hx | hx
        · subst hx; exact Nat.lt_of_not_le hb
        · exact hpre x hx, hb', hr⟩

/-- A successful roll lies in `1..num_sides` (for a die with at least one
side). -/
theorem roll_bounds (d : Dice) (hpos : 1 ≤ d.num_sides) (stream rest : List Nat) (r : Nat)
    (h : d.roll stream = some (r, rest)) : 1 ≤ r ∧ r ≤ d.num_sides := by
  obtain ⟨pre, b, _, _, _, hr⟩ := roll_eq d stream r rest h
  subst hr
  exact ⟨Nat.succ_le_succ (Nat.zero_le _), Nat.succ_le_of_lt (Nat.mod_lt b hpos)⟩

set_option maxRecDepth 40000 in
/-- C1: for every `sides` in `2..20`, with `ceiling = floor(256/sides)*sides - 1`
as computed at construction, each outcome `k` in `1..sides` is produced by
exactly `floor(256/sides)` of the accepted byte values `b` in `0..ceiling`
(those with `(b mod sides) + 1 = k`), so the accepted bytes are partitioned
evenly among the `sides` outcomes. -/
theorem dice_ceiling_uniform_partition :
    ∀ s ∈ Finset.Icc 2 20,
      mkDice s = some { num_sides := s, ceiling := ceilingOf s } ∧
        ∀ k ∈ Finset.Icc 1 s,
          ((Finset.range (ceilingOf s + 1)).filter fun b => b % s + 1 = k).card = 256 / s := by
  decide

/-- Witness for C1 at `sides = 6`, outcome `k = 4`. -/
theorem dice_ceiling_uniform_partition_witness :
    mkDice 6 = some { num_sides := 6, ceiling := ceilingOf 6 } ∧
      ((Finset.range (ceilingOf 6 + 1)).filter fun b => b % 6 + 1 = 4).card = 256 / 6 :=
  ⟨(dice_ceiling_uniform_partition 6 (by decide)).1,
    (dice_ceiling_uniform_partition 6 (by decide)).2 4 (by decide)⟩

/-- C2: for a die constructed with `sides` in `2..20` and any entropy stream,
whenever `roll()` returns, its result is in `1..sides`; the first byte
`b ≤ ceiling` yields the result `(b mod sides) + 1` and all earlier bytes
(each above `ceiling`) are discarded. -/
theorem roll_first_accepted_in_range (n : Nat) (d : Dice) (hd : mkDice n = some d)
    (stream rest : List Nat) (r : Nat) (h : d.roll stream = some (r, rest)) :
    (1 ≤ r ∧ r ≤ n) ∧
      ∃ pre b, stream = pre ++ b :: rest ∧ (∀ x ∈ pre, d.ceiling < x) ∧ b ≤ d.ceiling ∧
        r = b % n + 1 := by
  have hn : 2 ≤ n ∧ n ≤ 20 ∧ d.num_sides = n := by
    by_cases hcond : 2 ≤ n ∧ n ≤ 20
    · rw [mkDice, if_pos hcond] at hd
      exact ⟨hcond.1, hcond.2, by rw [← Option.some_inj.mp hd]⟩
    · rw [mkDice, if_neg hcond] at hd
      exact absurd hd (by simp)
  obtain ⟨hn2, _, hns⟩ := hn
  have hb := roll_bounds d (by omega) stream rest r h
  obtain ⟨pre, b, hs, hpre, hble, hr⟩ := roll_eq d stream r rest h
  exact ⟨⟨hb.1, hns ▸ hb.2⟩, pre, b, hs, hpre, hble, by rw [hr, hns]⟩

/-- Witness for C2: a six-sided die on the stream `[253, 9]` rejects `253` and
accepts `9`, rolling `(9 mod 6) + 1 = 4`. -/
theorem roll_first_accepted_in_range_witness :
    (1 ≤ 4 ∧ 4 ≤ 6) ∧
      ∃ pre b, [253, 9] = pre ++ b :: ([] : List Nat) ∧
        (∀ x ∈ pre, (251 : Nat) < x) ∧ b ≤ 251 ∧ 4 = b % 6 + 1 :=
  roll_first_accepted_in_range 6 { num_sides := 6, ceiling := 251 } (by decide)
    [253, 9] [] 4 (by decide)

/-- C7: constructing a die with `sides` outside `2..20` fails (so a load whose
final `dice_sides` is out of range aborts with no new state), and for `sides`
in range construction succeeds with `ceiling = floor(256/sides)*sides - 1`. -/
theorem dice_construction_range :
    (∀ n, 2 ≤ n → n ≤ 20 →
        mkDice n = some { num_sides := n, ceiling := (256 / n) * n - 1 }) ∧
      (∀ n, ¬(2 ≤ n ∧ n ≤ 20) → mkDice n = none) ∧
      ∀ st lines, mkDice (loadScan st lines).dice_sides = none → load st lines = none := by
  refine ⟨?_, ?_, ?_⟩
  · intro n h1 h2
    rw [mkDice, if_pos ⟨h1, h2⟩]
  · intro n hn
    rw [mkDice, if_neg hn]
  · intro st lines h
    rw [load, h]
    rfl

/-- Witness for C7: `mkDice 6` succeeds with ceiling `251`, `mkDice 21` fails,
and loading a list whose `SIDES=1` directive takes effect aborts. -/
theorem dice_construction_range_witness :
    mkDice 6 = some { num_sides := 6, ceiling := 251 } ∧ mkDice 21 = none ∧
      load initialState [("SIDES=1").toList] = none :=
  ⟨dice_construction_range.1 6 (by decide) (by decide),
    dice_construction_range.2.1 21 (by decide),
    dice_construction_range.2.2 initialState [("SIDES=1").toList] (by decide)⟩

/-- C8: `verify()` on a state whose entries mapping is unset (`None`) or empty
raises the "no word list loaded" error, independently of the recursion budget
and of the dice configuration (no key is enumerated). -/
theorem verify_unloaded (st : WordListState) (h : st.words = none ∨ st.words = some []) :
    verify st = .notLoaded ∧
      ∀ nd ds fuel,
        verifyFuel { st with num_dice := nd, dice_sides := ds } fuel = .notLoaded := by
  constructor
  · rcases h with h | h <;> simp [verify, verifyFuel, wordsEmpty, h]
  · intro nd ds fuel
    rcases h with h | h <;> simp [verifyFuel, wordsEmpty, h]

/-- Witness for C8 at the pristine state (words `None`). -/
theorem verify_unloaded_witness :
    verify initialState = .notLoaded ∧
      verifyFuel { initialState with num_dice := 3, dice_sides := 7 } 5 = .notLoaded :=
  ⟨(verify_unloaded initialState (Or.inl rfl)).1,
    (verify_unloaded initialState (Or.inl rfl)).2 3 7 5⟩

/-- The roll list of a successful `[self._roll_dice() for x in range(n)]` has
exactly `n` keys. -/
theorem rollsN_length (d : Dice) (nd : Nat) :
    ∀ n s ks s', rollsN d nd n s = some (ks, s') → ks.length = n := by
  intro n
  induction n with
  | zero =>
    intro s ks s' h
    obtain ⟨h1, _⟩ : ks = [] ∧ s = s' := by simpa [rollsN] using h
    simp [h1]
  | succ n ih =>
    intro s ks s' h
    rw [rollsN] at h
    cases hrd : rollDice d nd s with
    | none => simp [hrd] at h
    | some p =>
      obtain ⟨k, s1⟩ := p
      simp only [hrd] at h
      cases hN : rollsN d nd n s1 with
      | none => simp [hN] at h
      | some q =>
        obtain ⟨ks1, s2⟩ := q
        simp only [hN] at h
        obtain ⟨hks, _⟩ : k :: ks1 = ks ∧ s2 = s' := by simpa using h
        rw [← hks, List.length_cons, ih s1 ks1 s2 hN]

/-- Shape of a key produced by `_roll_dice` on a die with at most nine sides:
`num_dice` characters, each a digit in `1..num_sides`. -/
theorem rollDice_key (d : Dice) (hle : d.num_sides ≤ 9) (hpos : 1 ≤ d.num_sides) :
    ∀ n s k s', rollDice d n s = some (k, s') →
      k.length = n ∧ ∀ c ∈ k, c.isDigit = true ∧ 1 ≤ digitVal c ∧ digitVal c ≤ d.num_sides := by
  intro n
  induction n with
  | zero =>
    intro s k s' h
    obtain ⟨h1, _⟩ : k = [] ∧ s = s' := by simpa [rollDice] using h
    simp [h1]
  | succ n ih =>
    intro s k s' h
    rw [rollDice] at h
    cases hr : d.roll s with
    | none => simp [hr] at h
    | some p =>
      obtain ⟨r, s1⟩ := p
      simp only [hr] at h
      cases hk : rollDice d n s1 with
      | none => simp [hk] at h
      | some q =>
        obtain ⟨cs, s2⟩ := q
        simp only [hk] at h
        obtain ⟨hkk, _⟩ : natDigits r ++ cs = k ∧ s2 = s' := by simpa using h
        obtain ⟨hr1, hr2⟩ := roll_bounds d hpos s s1 r hr
        have hr10 : r < 10 := by omega
        obtain ⟨hlen, hall⟩ := ih s1 cs s2 hk
        rw [← hkk]
        constructor
        · rw [List.length_append, natDigits_small r hr10, hlen]
          simp [Nat.add_comm]
        · intro c hc
          rcases List.mem_append.mp hc with hc | hc
          · rw [natDigits_small r hr10] at hc
            obtain rfl : c = digitChar r := by simpa using hc
            exact ⟨isDigit_digitChar r hr10, by rw [digitVal_digitChar r hr10]; omega⟩
          · exact hall c hc

/-- Shape of every key produced by the roll-list comprehension. -/
theorem rollsN_keys (d : Dice) (hle : d.num_sides ≤ 9) (hpos : 1 ≤ d.num_sides)
    (nd : Nat) :
    ∀ n s ks s', rollsN d nd n s = some (ks, s') →
      ∀ k ∈ ks, k.length = nd ∧
        ∀ c ∈ k, c.isDigit = true ∧ 1 ≤ digitVal c ∧ digitVal c ≤ d.num_sides := by
  intro n
  induction n with
  | zero =>
    intro s ks s' h
    obtain ⟨h1, _⟩ : ks = [] ∧ s = s' := by simpa [rollsN] using h
    simp [h1]
  | succ n ih =>
    intro s ks s' h
    rw [rollsN] at h
    cases hrd : rollDice d nd s with
    | none => simp [hrd] at h
    | some p =>
      obtain ⟨k, s1⟩ := p
      simp only [hrd] at h
      cases hN : rollsN d nd n s1 with
      | none => simp [hN] at h
      | some q =>
        obtain ⟨ks1, s2⟩ := q
        simp only [hN] at h
        obtain ⟨hks, _⟩ : k :: ks1 = ks ∧ s2 = s' := by simpa using h
        intro k' hk'
        rw [← hks] at hk'
        rcases List.mem_cons.mp hk' with hk' | hk'
        · subst hk'
          exact rollDice_key d hle hpos nd s k' s1 hrd
        · exact ih s1 ks1 s2 hN k' hk'

/-- Counterexample to C3 as stated: `exLines3` loads a word list whose
`diceSides = 10` lies in `2..20`, yet on the entropy stream `[9]` the die
rolls `(9 mod 10) + 1 = 10`, `str(10)` contributes two characters, and the
returned roll-key `"10"` has length `2 ≠ diceCount = 1` and contains the
character `'0'`, which is not a digit in `1..diceSides`. -/
theorem generate_keys_shape_cex :
    load initialState exLines3 = some exSt3 ∧
      mkDice exSt3.dice_sides = some { num_sides := 10, ceiling := 249 } ∧
      exSt3.dice = some { num_sides := 10, ceiling := 249 } ∧
      2 ≤ exSt3.dice_sides ∧ exSt3.dice_sides ≤ 20 ∧
      get_password exSt3 1 [9] = some ({ rolls := [['1', '0']], words := [none] }, []) ∧
      ¬(['1', '0'] : List Char).length = exSt3.num_dice ∧
      ¬(1 ≤ digitVal '0') := by
  decide

/-- C3 amended (claim fails for `diceSides ≥ 10`, see
`generate_keys_shape_cex`): for every loaded word list with `diceSides ≤ 9`
and every word count, every roll-key returned by `get_password` has length
exactly `diceCount`, and each of its characters is a digit in
`1..diceSides`. -/
theorem generate_keys_shape (st : WordListState) (d : Dice)
    (hmk : mkDice st.dice_sides = some d) (hd : st.dice = some d)
    (hs : st.dice_sides ≤ 9) (n : Nat) (stream : List Nat)
    (p : DicewarePassword) (s' : List Nat)
    (h : get_password st n stream = some (p, s')) :
    ∀ k ∈ p.rolls, k.length = st.num_dice ∧
      ∀ c ∈ k, c.isDigit = true ∧ 1 ≤ digitVal c ∧ digitVal c ≤ st.dice_sides := by
  have hsides : d.num_sides = st.dice_sides ∧ 2 ≤ st.dice_sides := by
    by_cases hcond : 2 ≤ st.dice_sides ∧ st.dice_sides ≤ 20
    · rw [mkDice, if_pos hcond] at hmk
      exact ⟨by rw [← Option.some_inj.mp hmk], hcond.1⟩
    · rw [mkDice, if_neg hcond] at hmk
      exact absurd hmk (by simp)
  rw [get_password, hd] at h
  cases hw : st.words with
  | none =>
    simp only [hw] at h
    obtain ⟨hp, _⟩ : { rolls := [], words := [] } = p ∧ stream = s' := by simpa using h
    rw [← hp]
    simp
  | some w =>
    simp only [hw] at h
    by_cases hemp : w.isEmpty = true
    · rw [if_pos hemp] at h
      obtain ⟨hp, _⟩ : { rolls := [], words := [] } = p ∧ stream = s' := by simpa using h
      rw [← hp]
      simp
    · rw [if_neg hemp] at h
      cases hN : rollsN d st.num_dice n stream with
      | none => simp [hN] at h
      | some q =>
        obtain ⟨ks, s2⟩ := q
        simp only [hN] at h
        obtain ⟨hp, _⟩ : ({ rolls := ks, words := ks.map (dictGet w) } : DicewarePassword) = p ∧ s2 = s' := by
          simpa using h
        rw [← hp]
        have := rollsN_keys d (by omega) (by omega) st.num_dice n stream ks s2 hN
        simpa [hsides.1] using this

/-- Witness for the amended C3: the loaded state `stW` on the stream `[0, 1]`
yields the single key `"12"` of length `diceCount = 2` with digits in
`1..6`. -/
theorem generate_keys_shape_witness :
    (['1', '2'] : List Char).length = stW.num_dice ∧
      ∀ c ∈ (['1', '2'] : List Char),
        c.isDigit = true ∧ 1 ≤ digitVal c ∧ digitVal c ≤ stW.dice_sides :=
  generate_keys_shape stW { num_sides := 6, ceiling := 251 } (by decide) rfl (by decide)
    1 [0, 1] pW [] (by decide) ['1', '2'] (by decide)

/-- C6: `get_password` never fails. When the die or the dictionary is unset
or empty it returns the empty password without touching the entropy stream;
otherwise a returned password has `wordCount` rolls, and its word list is
exactly the index-aligned `dict.get` lookup of the rolls (an absent key
contributing `none` rather than an error). -/
theorem get_password_never_fails (st : WordListState) (n : Nat) (stream : List Nat) :
    ((st.dice = none ∨ st.words = none ∨ st.words = some []) →
        get_password st n stream = some ({ rolls := [], words := [] }, stream)) ∧
      ∀ d w p s', st.dice = some d → st.words = some w → w ≠ [] →
        get_password st n stream = some (p, s') →
        p.rolls.length = n ∧ p.words = p.rolls.map (dictGet w) ∧ p.words.length = n := by
  constructor
  · intro h
    rcases h with h | h | h
    · rw [get_password, h]
    · rw [get_password, h]
      cases st.dice <;> rfl
    · rw [get_password, h]
      cases st.dice <;> rfl
  · intro d w p s' hd hw hne h
    rw [get_password] at h
    simp only [hd, hw] at h
    rw [if_neg (by simpa [List.isEmpty_iff] using hne)] at h
    cases hN : rollsN d st.num_dice n stream with
    | none => simp [hN] at h
    | some q =>
      obtain ⟨ks, s2⟩ := q
      simp only [hN] at h
      obtain ⟨hp, _⟩ : ({ rolls := ks, words := ks.map (dictGet w) } : DicewarePassword) = p ∧ s2 = s' := by
        simpa using h
      rw [← hp]
      refine ⟨rollsN_length d st.num_dice n stream ks s2 hN, rfl, ?_⟩
      simp [rollsN_length d st.num_dice n stream ks s2 hN]

/-- Witness for C6: the unloaded initial state degrades to the empty password
on `get_password(3)`, and the loaded state `stW` produces one aligned
roll/word pair. -/
theorem get_password_never_fails_witness :
    get_password initialState 3 [] = some ({ rolls := [], words := [] }, []) ∧
      pW.rolls.length = 1 ∧ pW.words = pW.rolls.map (dictGet wordsW) ∧ pW.words.length = 1 :=
  ⟨(get_password_never_fails initialState 3 []).1 (Or.inl rfl),
    (get_password_never_fails stW 1 [0, 1]).2 { num_sides := 6, ceiling := 251 } wordsW pW []
      rfl rfl (by decide) (by decide)⟩

/-- Lowercasing leaves digit characters unchanged. -/
theorem digit_toLower (c : Char) (h : c.isDigit = true) : Char.toLower c = c := by
  unfold Char.toLower
  have h2 : c.toNat ≤ 57 := by
    simp [Char.isDigit] at h
    simpa [Char.toNat, UInt32.le_def, Fin.le_def] using h.2
  rw [if_neg]
  omega

/-- A line matched by `PARSE_OPTION` (it starts with a letter of `DICE` or
`SIDES`) is never matched by `PARSE_WORD` (which needs a leading digit). -/
theorem parse_option_word_none (l : List Char) (b : Bool) (v : Nat)
    (h : parse_option l = some (b, v)) : parse_word l = none := by
  have hhead : ∃ c t, l = c :: t ∧ (Char.toLower c = 'd' ∨ Char.toLower c = 's') := by
    rw [parse_option] at h
    by_cases h1 : toLowerList (l.take 4) = ("dice").toList
    · cases l with
      | nil => simp [toLowerList] at h1
      | cons c t =>
        refine ⟨c, t, rfl, Or.inl ?_⟩
        rw [show (c :: t).take 4 = c :: t.take 3 from rfl, toLowerList, List.map_cons] at h1
        exact (List.cons_eq_cons.mp h1).1
    · rw [if_neg h1] at h
      by_cases h2 : toLowerList (l.take 5) = ("sides").toList
      · cases l with
        | nil => simp [toLowerList] at h2
        | cons c t =>
          refine ⟨c, t, rfl, Or.inr ?_⟩
          rw [show (c :: t).take 5 = c :: t.take 4 from rfl, toLowerList, List.map_cons] at h2
          exact (List.cons_eq_cons.mp h2).1
      · rw [if_neg h2] at h
        exact absurd h (by simp)
  obtain ⟨c, t, rfl, hc⟩ := hhead
  have hcd : c.isDigit = false := by
    cases hdig : c.isDigit with
    | false => rfl
    | true =>
      rw [digit_toLower c hdig] at hc
      rcases hc with hc | hc <;> rw [hc] at hdig <;> exact absurd hdig (by decide)
  simp [parse_word, List.takeWhile_cons, hcd]

/-- The `found_words` flag after one line is the old flag, or-ed with whether
the stripped line matches the word-entry shape (valid roll key or not). -/
theorem processLine_found (st : LoadState) (l : List Char) :
    (processLine st l).found_words
      = (st.found_words || (parse_word (pyStrip l)).isSome) := by
  simp only [processLine]
  by_cases he : (pyStrip l).isEmpty
  · have hnil : pyStrip l = [] := by simpa [List.isEmpty_iff] using he
    simp [hnil, parse_word]
  · simp only [he, Bool.false_eq_true, if_false]
    cases hw : parse_word (pyStrip l) with
    | some p =>
      obtain ⟨roll, w⟩ := p
      by_cases hv : is_valid_roll st.num_dice st.dice_sides roll = true <;>
        simp [hv]
    | none =>
      by_cases hf : st.found_words = true
      · simp [hf]
      · simp only [Bool.not_eq_true] at hf
        cases ho : parse_option (pyStrip l) with
        | none => simp [ho, hf]
        | some p =>
          obtain ⟨isD, v⟩ := p
          cases isD <;> simp [ho, hf]

/-- Over a whole prefix of lines, `found_words` records exactly whether some
line of the prefix matches the word-entry shape. -/
theorem foldl_found (lines : List (List Char)) :
    ∀ init : LoadState, (lines.foldl processLine init).found_words
      = (init.found_words || lines.any fun l => (parse_word (pyStrip l)).isSome) := by
  induction lines with
  | nil => intro init; simp
  | cons l ls ih =>
    intro init
    rw [List.foldl_cons, ih (processLine init l), processLine_found, List.any_cons,
      Bool.or_assoc]

/-- Processing a directive line: it is ignored exactly when `found_words` is
already set, and otherwise updates `num_dice` (`DICE`) or `dice_sides`
(`SIDES`). -/
theorem processLine_directive (st : LoadState) (l : List Char) (isD : Bool) (v : Nat)
    (h : parse_option (pyStrip l) = some (isD, v)) :
    processLine st l = if st.found_words then st
      else if isD then { st with num_dice := v } else { st with dice_sides := v } := by
  have hne : (pyStrip l).isEmpty = false := by
    cases hsl : pyStrip l with
    | nil => rw [hsl] at h; simp [parse_option, toLowerList] at h
    | cons c t => rfl
  have hword : parse_word (pyStrip l) = none := parse_option_word_none _ _ _ h
  simp only [processLine, hne, Bool.false_eq_true, if_false, hword, h]

/-- C5: during `load`, a `DICE`/`SIDES` directive line takes effect exactly
when no earlier line of the scan matched the word-entry shape
(`<digits><whitespace><rest>`): the `found_words` flag equals that
"some earlier word-shaped line" test — counting word-shaped lines whose roll
key was invalid and was never stored — and the directive line leaves the
state unchanged when the flag is set, and otherwise sets `num_dice`
respectively `dice_sides` to its value. -/
theorem directive_set_iff_no_earlier_word_line (init : LoadState)
    (hf : init.found_words = false) (pre : List (List Char)) (dline : List Char)
    (isD : Bool) (v : Nat) (hopt : parse_option (pyStrip dline) = some (isD, v)) :
    (pre.foldl processLine init).found_words
        = pre.any (fun l => (parse_word (pyStrip l)).isSome) ∧
      processLine (pre.foldl processLine init) dline
        = (if pre.any (fun l => (parse_word (pyStrip l)).isSome) then
            pre.foldl processLine init
          else if isD then { pre.foldl processLine init with num_dice := v }
          else { pre.foldl processLine init with dice_sides := v }) := by
  have hflag : (pre.foldl processLine init).found_words
      = pre.any (fun l => (parse_word (pyStrip l)).isSome) := by
    rw [foldl_found pre init, hf, Bool.false_or]
  refine ⟨hflag, ?_⟩
  rw [processLine_directive _ _ _ _ hopt]
  simp only [hflag]

/-- Witness for C5: after the word-shaped (but invalid) line `"999 x"`, the
directive `DICE=2` is ignored; the flag is set by the word-shaped line. -/
theorem directive_set_iff_no_earlier_word_line_witness :
    (([("999 x").toList]).foldl processLine (initLoad initialState)).found_words
        = ([("999 x").toList]).any (fun l => (parse_word (pyStrip l)).isSome) ∧
      processLine (([("999 x").toList]).foldl processLine (initLoad initialState))
          (("DICE=2").toList)
        = (if ([("999 x").toList]).any (fun l => (parse_word (pyStrip l)).isSome) then
            ([("999 x").toList]).foldl processLine (initLoad initialState)
          else if true then
            { ([("999 x").toList]).foldl processLine (initLoad initialState) with
                num_dice := 2 }
          else
            { ([("999 x").toList]).foldl processLine (initLoad initialState) with
                dice_sides := 2 }) :=
  directive_set_iff_no_earlier_word_line (initLoad initialState) rfl
    [("999 x").toList] (("DICE=2").toList) true 2 (by decide)

/-- One parsed line never changes the configuration when it is not a
directive. -/
theorem processLine_config (st : LoadState) (l : List Char)
    (h : parse_option (pyStrip l) = none) :
    (processLine st l).num_dice = st.num_dice ∧
      (processLine st l).dice_sides = st.dice_sides := by
  simp only [processLine]
  by_cases he : (pyStrip l).isEmpty
  · simp [he]
  · simp only [he, Bool.false_eq_true, if_false]
    cases hw : parse_word (pyStrip l) with
    | some p =>
      obtain ⟨roll, w⟩ := p
      by_cases hv : is_valid_roll st.num_dice st.dice_sides roll = true <;> simp [hv, h]
    | none =>
      by_cases hf : st.found_words = true
      · simp [hf]
      · simp only [Bool.not_eq_true] at hf
        simp [hf, h]

/-- The scan preserves the configuration when no line is a directive. -/
theorem foldl_config (lines : List (List Char)) :
    ∀ init : LoadState, (∀ l ∈ lines, parse_option (pyStrip l) = none) →
      (lines.foldl processLine init).num_dice = init.num_dice ∧
        (lines.foldl processLine init).dice_sides = init.dice_sides := by
  induction lines with
  | nil => intro init _; exact ⟨rfl, rfl⟩
  | cons l ls ih =>
    intro init h
    rw [List.foldl_cons]
    obtain ⟨ih1, ih2⟩ := ih (processLine init l) (fun x hx => h x (List.mem_cons_of_mem l hx))
    obtain ⟨h1, h2⟩ := processLine_config init l (h l (List.mem_cons_self l ls))
    exact ⟨ih1.trans h1, ih2.trans h2⟩

/-- C10: `load` rebuilds the entries mapping from scratch — its result does
not depend on the previously stored `words` at all — and when the input
contains no `DICE`/`SIDES` directive the configuration established before the
call (`num_dice`, `dice_sides`) is kept, while `words` becomes the freshly
scanned dictionary. -/
theorem load_replaces_words_keeps_config (st : WordListState) (w : Option Dict)
    (lines : List (List Char)) :
    load st lines = load { st with words := w } lines ∧
      ((∀ l ∈ lines, parse_option (pyStrip l) = none) →
        ∀ st', load st lines = some st' →
          st'.num_dice = st.num_dice ∧ st'.dice_sides = st.dice_sides ∧
            st'.words = some (loadScan st lines).words) := by
  constructor
  · rfl
  · intro hnd st' hload
    obtain ⟨d, _, hst'⟩ := Option.map_eq_some'.mp hload
    obtain ⟨h1, h2⟩ := foldl_config lines (initLoad st) hnd
    rw [← hst']
    exact ⟨h1, h2, rfl⟩

/-- Witness for C10: reloading `stW` (which holds a one-entry dictionary)
with the directive-free line `"11 aa"` keeps `num_dice = 2`,
`dice_sides = 6`, and replaces the dictionary with the new single entry. -/
theorem load_replaces_words_keeps_config_witness :
    load stW [("11 aa").toList] = load { stW with words := none } [("11 aa").toList] ∧
      ((loadScan stW [("11 aa").toList]).words = [(['1', '1'], ['a', 'a'])] ∧
        ∀ st', load stW [("11 aa").toList] = some st' →
          st'.num_dice = stW.num_dice ∧ st'.dice_sides = stW.dice_sides ∧
            st'.words = some (loadScan stW [("11 aa").toList]).words) :=
  ⟨(load_replaces_words_keeps_config stW none [("11 aa").toList]).1,
    by decide,
    fun st' h =>
      (load_replaces_words_keeps_config stW none [("11 aa").toList]).2
        (by decide) st' h⟩

/-- Membership in Python `range(1, n + 1)`. -/
theorem mem_sidesList (n s : Nat) : s ∈ sidesList n ↔ 1 ≤ s ∧ s ≤ n := by
  rw [sidesList, List.mem_range'_1]
  omega

/-- Checking `k :: ks` stops at `k` exactly when its lookup is falsy. -/
theorem specFrom_cons (d : Dict) (k : List Char) (ks : List (List Char)) :
    specFrom d (k :: ks)
      = if falsy (dictGet d k) then .missing k else specFrom d ks := by
  rw [specFrom, List.find?_cons]
  cases h : falsy (dictGet d k) <;> simp [h, specFrom]

/-- Checking a concatenation checks the first block first. -/
theorem specFrom_append (d : Dict) (l1 l2 : List (List Char)) :
    specFrom d (l1 ++ l2)
      = match specFrom d l1 with
        | .ok => specFrom d l2
        | r => r := by
  rw [specFrom, List.find?_append]
  cases h : l1.find? (fun k => falsy (dictGet d k)) with
  | none => simp [specFrom, h, Option.or]
  | some k => simp [specFrom, h, Option.or]

/-- The key check never reports fuel exhaustion. -/
theorem specFrom_ne_outOfFuel (d : Dict) (keys : List (List Char)) :
    specFrom d keys ≠ .outOfFuel := by
  rw [specFrom]
  cases h : keys.find? (fun k => falsy (dictGet d k)) <;> simp

/-- Main bridge for the `_verify` loop (single-digit side counts): at a
prefix `pre` that still needs `m + 1` digits, with at least `m` units of
recursion budget left, the loop over the remaining sides `sideL` checks
exactly the keys extending `pre` by one of those sides and then any `m`
further digits, in enumeration order. -/
theorem verifyLoop_spec (nd sides : Nat) (d : Dict) (hs : sides ≤ 9) :
    ∀ m : Nat, ∀ fuel : Nat, m ≤ fuel → ∀ pre : List Char, pre.length + m + 1 = nd →
      ∀ sideL : List Nat, (∀ s ∈ sideL, 1 ≤ s ∧ s ≤ sides) →
        verifyLoop (fun roll => verifyDepth nd sides d fuel roll) nd d pre sideL
          = specFrom d
              (sideL.flatMap fun s =>
                (keysOver sides m).map fun k => pre ++ natDigits s ++ k) := by
  intro m
  induction m with
  | zero =>
    intro fuel _ pre hlen sideL
    induction sideL with
    | nil => intro _; simp [verifyLoop, specFrom]
    | cons s rest ihL =>
      intro hmem
      obtain ⟨hs1, hs2⟩ := hmem s (List.mem_cons_self s rest)
      have hdig : natDigits s = [digitChar s] := natDigits_small s (by omega)
      have hrolllen : (pre ++ natDigits s).length = nd := by
        rw [hdig]
        simp
        omega
      rw [verifyLoop, if_pos hrolllen, List.flatMap_cons]
      have hkey0 : (keysOver sides 0).map (fun k => pre ++ natDigits s ++ k)
          = [pre ++ natDigits s] := by
        simp [keysOver]
      rw [hkey0]
      cases hfal : falsy (dictGet d (pre ++ natDigits s)) with
      | true =>
        rw [if_pos rfl]
        rw [List.singleton_append, specFrom_cons, if_pos hfal]
      | false =>
        rw [if_neg (by simp)]
        rw [List.singleton_append, specFrom_cons, if_neg (by simp [hfal])]
        exact ihL fun x hx => hmem x (List.mem_cons_of_mem s hx)
  | succ m' ihm =>
    intro fuel hfuel pre hlen sideL
    induction sideL with
    | nil => intro _; simp [verifyLoop, specFrom]
    | cons s rest ihL =>
      intro hmem
      obtain ⟨hs1, hs2⟩ := hmem s (List.mem_cons_self s rest)
      have hdig : natDigits s = [digitChar s] := natDigits_small s (by omega)
      have hrolllen : ¬((pre ++ natDigits s).length = nd) := by
        rw [hdig]
        simp
        omega
      obtain ⟨f, rfl⟩ : ∃ f, fuel = f + 1 := ⟨fuel - 1, by omega⟩
      rw [verifyLoop, if_neg hrolllen]
      have hdepth : verifyDepth nd sides d (f + 1) (pre ++ natDigits s)
          = specFrom d ((keysOver sides (m' + 1)).map fun k => pre ++ natDigits s ++ k) := by
        rw [verifyDepth]
        rw [ihm f (by omega) (pre ++ natDigits s)
          (by rw [hdig]; simp; omega)
          (sidesList sides) (fun x hx => (mem_sidesList sides x).mp hx)]
        congr 1
        rw [keysOver, List.map_flatMap]
        refine congrArg (List.flatMap (sidesList sides)) (funext fun s' => ?_)
        rw [List.map_map]
        refine congrArg (fun f => List.map f (keysOver sides m')) (funext fun k => ?_)
        simp [List.append_assoc]
      rw [List.flatMap_cons, specFrom_append, hdepth]
      cases hsp : specFrom d ((keysOver sides (m' + 1)).map fun k => pre ++ natDigits s ++ k) with
      | ok => exact ihL fun x hx => hmem x (List.mem_cons_of_mem s hx)
      | missing k => rfl
      | notLoaded => rfl
      | outOfFuel => rfl

/-- `_verify(prefix)` with enough recursion budget checks exactly the keys
extending the prefix to the full length, in enumeration order (single-digit
side counts). -/
theorem verifyDepth_spec (nd sides : Nat) (d : Dict) (hs : sides ≤ 9) (m fuel : Nat)
    (hm : 1 ≤ m) (hfuel : m ≤ fuel) (pre : List Char) (hlen : pre.length + m = nd) :
    verifyDepth nd sides d fuel pre
      = specFrom d ((keysOver sides m).map fun k => pre ++ k) := by
  obtain ⟨m', rfl⟩ : ∃ m', m = m' + 1 := ⟨m - 1, by omega⟩
  obtain ⟨f, rfl⟩ : ∃ f, fuel = f + 1 := ⟨fuel - 1, by omega⟩
  rw [verifyDepth]
  rw [verifyLoop_spec nd sides d hs m' f (by omega) pre (by omega)
    (sidesList sides) (fun x hx => (mem_sidesList sides x).mp hx)]
  congr 1
  rw [keysOver, List.map_flatMap]
  refine congrArg (List.flatMap (sidesList sides)) (funext fun s' => ?_)
  rw [List.map_map]
  refine congrArg (fun f => List.map f (keysOver sides m')) (funext fun k => ?_)
  simp [Function.comp, List.append_assoc]

/-- With too little budget and at least one side, the loop at a prefix that
still needs two or more digits always runs out of fuel. -/
theorem verifyLoop_outOfFuel (nd sides : Nat) (d : Dict) (hs : sides ≤ 9) :
    ∀ fuel m pre (sideL : List Nat), 1 ≤ m → fuel < m → pre.length + m + 1 = nd →
      sideL ≠ [] → (∀ s ∈ sideL, 1 ≤ s ∧ s ≤ sides) → 1 ≤ sides →
      verifyLoop (fun roll => verifyDepth nd sides d fuel roll) nd d pre sideL
        = .outOfFuel := by
  intro fuel
  induction fuel with
  | zero =>
    intro m pre sideL hm _ hlen hne hmem _
    cases sideL with
    | nil => exact absurd rfl hne
    | cons s rest =>
      obtain ⟨hs1, hs2⟩ := hmem s (List.mem_cons_self s rest)
      have hdig : natDigits s = [digitChar s] := natDigits_small s (by omega)
      have hrolllen : ¬((pre ++ natDigits s).length = nd) := by
        rw [hdig]
        simp
        omega
      rw [verifyLoop, if_neg hrolllen]
      rfl
  | succ f ih =>
    intro m pre sideL hm hflt hlen hne hmem hsp
    cases sideL with
    | nil => exact absurd rfl hne
    | cons s rest =>
      obtain ⟨hs1, hs2⟩ := hmem s (List.mem_cons_self s rest)
      have hdig : natDigits s = [digitChar s] := natDigits_small s (by omega)
      have hrolllen : ¬((pre ++ natDigits s).length = nd) := by
        rw [hdig]
        simp
        omega
      rw [verifyLoop, if_neg hrolllen]
      have hin : verifyDepth nd sides d (f + 1) (pre ++ natDigits s) = .outOfFuel := by
        rw [verifyDepth]
        refine ih (m - 1) (pre ++ natDigits s) (sidesList sides) (by omega) (by omega)
          (by rw [hdig]; simp; omega) ?_ (fun x hx => (mem_sidesList sides x).mp hx) hsp
        have : sides ∈ sidesList sides := (mem_sidesList sides sides).mpr ⟨hsp, le_refl sides⟩
        intro hnil
        rw [hnil] at this
        exact absurd this (List.not_mem_nil sides)
      rw [hin]

/-- `_verify(prefix)` runs out of fuel whenever the budget is smaller than
the number of digits still missing (which is at least two). -/
theorem verifyDepth_outOfFuel (nd sides : Nat) (d : Dict) (hs : sides ≤ 9)
    (hsp : 1 ≤ sides) (m fuel : Nat) (pre : List Char) (hm : 2 ≤ m) (hfuel : fuel < m)
    (hlen : pre.length + m = nd) :
    verifyDepth nd sides d fuel pre = .outOfFuel := by
  cases fuel with
  | zero => rfl
  | succ f =>
    rw [verifyDepth]
    refine verifyLoop_outOfFuel nd sides d hs f (m - 1) pre (sidesList sides)
      (by omega) (by omega) (by omega) ?_ (fun x hx => (mem_sidesList sides x).mp hx) hsp
    have : sides ∈ sidesList sides := (mem_sidesList sides sides).mpr ⟨hsp, le_refl sides⟩
    intro hnil
    rw [hnil] at this
    exact absurd this (List.not_mem_nil sides)

/-- Characterisation of the enumerated keys (single-digit side counts):
exactly the strings of `m` digit characters with values in `1..sides`. -/
theorem mem_keysOver (sides : Nat) (hs : sides ≤ 9) :
    ∀ m (k : List Char), k ∈ keysOver sides m ↔
      (k.length = m ∧ ∀ c ∈ k, ∃ s, 1 ≤ s ∧ s ≤ sides ∧ c = digitChar s) := by
  intro m
  induction m with
  | zero =>
    intro k
    simp [keysOver, List.length_eq_zero]
    intro h
    rw [h]
    simp
  | succ m ih =>
    intro k
    rw [keysOver]
    constructor
    · intro hk
      rw [List.mem_flatMap] at hk
      obtain ⟨s, hsmem, hk⟩ := hk
      rw [List.mem_map] at hk
      obtain ⟨k', hk', rfl⟩ := hk
      obtain ⟨hb1, hb2⟩ := (mem_sidesList sides s).mp hsmem
      have hdig : natDigits s = [digitChar s] := natDigits_small s (by omega)
      obtain ⟨ihl, ihc⟩ := (ih k').mp hk'
      constructor
      · rw [hdig]
        simp [ihl]
      · intro c hc
        rw [hdig, List.singleton_append, List.mem_cons] at hc
        rcases hc with rfl | hc
        · exact ⟨s, hb1, hb2, rfl⟩
        · exact ihc c hc
    · rintro ⟨hlen, hall⟩
      cases k with
      | nil => simp at hlen
      | cons c k' =>
        obtain ⟨s, hb1, hb2, rfl⟩ := hall c (List.mem_cons_self c k')
        rw [List.mem_flatMap]
        refine ⟨s, (mem_sidesList sides s).mpr ⟨hb1, hb2⟩, ?_⟩
        rw [List.mem_map]
        refine ⟨k', ?_, ?_⟩
        · refine (ih k').mpr ⟨by simpa using hlen, fun c hc => hall c (List.mem_cons_of_mem _ hc)⟩
        · rw [natDigits_small s (by omega), List.singleton_append]

/-- The enumeration of `_verify` lists the keys in strictly increasing
lexicographic order (single-digit side counts). -/
theorem keysOver_sorted (sides : Nat) (hs : sides ≤ 9) :
    ∀ m, List.Pairwise keyLt (keysOver sides m) := by
  intro m
  induction m with
  | zero => simp [keysOver]
  | succ m ih =>
    rw [keysOver]
    have general : ∀ L : List Nat, (∀ s ∈ L, 1 ≤ s ∧ s ≤ sides) →
        List.Pairwise (· < ·) L →
        List.Pairwise keyLt
          (L.flatMap fun s => (keysOver sides m).map fun k => natDigits s ++ k) := by
      intro L
      induction L with
      | nil => intro _ _; simp
      | cons s L' ihL =>
        intro hmem hpw
        rw [List.flatMap_cons, List.pairwise_append]
        obtain ⟨hs1, hs2⟩ := hmem s (List.mem_cons_self s L')
        have hdig : natDigits s = [digitChar s] := natDigits_small s (by omega)
        refine ⟨?_, ihL (fun x hx => hmem x (List.mem_cons_of_mem s hx))
          (List.Pairwise.of_cons hpw), ?_⟩
        · rw [hdig]
          exact List.Pairwise.map _ (fun a b hab => List.Lex.cons hab) ih
        · intro a ha b hb
          rw [hdig] at ha
          rw [List.mem_map] at ha
          obtain ⟨ka, _, rfl⟩ := ha
          rw [List.mem_flatMap] at hb
          obtain ⟨s', hs'L, hb⟩ := hb
          rw [List.mem_map] at hb
          obtain ⟨kb, _, rfl⟩ := hb
          obtain ⟨hb1, hb2⟩ := hmem s' (List.mem_cons_of_mem s hs'L)
          have hss' : s < s' := (List.pairwise_cons.mp hpw).1 s' hs'L
          rw [natDigits_small s' (by omega), List.singleton_append, List.singleton_append]
          exact List.Lex.rel (digitChar_lt s (by omega) s' (by omega) hss')
    exact general (sidesList sides) (fun x hx => (mem_sidesList sides x).mp hx)
      (List.pairwise_lt_range' 1 sides)

set_option maxRecDepth 40000 in
/-- Counterexample to C4 as stated: with `diceCount = 1` and
`diceSides = 10`, the non-empty mapping `entries10` covers every enumerated
roll (`"1"` through `"9"` and `"10"`) with a non-empty word, yet `verify`
does not succeed: `str(10)` makes the prefix overshoot `diceCount`, the
recursion never reaches a key of the right length, and the recursion limit is
exhausted (Python's `RecursionError`). -/
theorem verify_coverage_cex :
    exSt4.num_dice = 1 ∧ exSt4.words = some entries10 ∧ entries10 ≠ [] ∧
      ((sidesList 10).all fun s => !(falsy (dictGet entries10 (natDigits s)))) = true ∧
      verify exSt4 = .outOfFuel := by
  decide

/-- C4 amended (claim fails for `diceSides ≥ 10`, see `verify_coverage_cex`):
for a non-empty entries mapping with `diceCount ≥ 1` (within the recursion
limit) and `diceSides ≤ 9`, `verify()` checks the full enumeration
`keysOver`, whose members are exactly the digit strings of length `diceCount`
over the alphabet `1..diceSides`, listed in strictly increasing lexicographic
order; it succeeds exactly when every such key maps to a non-empty word, and
otherwise reports the first — hence lexicographically first — key that is
absent or maps to a falsy word. -/
theorem verify_coverage (st : WordListState) (d : Dict) (hw : st.words = some d)
    (hne : d ≠ []) (hnd : 1 ≤ st.num_dice) (hlim : st.num_dice ≤ recursionLimit)
    (hs : st.dice_sides ≤ 9) :
    verify st = specFrom d (keysOver st.dice_sides st.num_dice) ∧
      (∀ k, k ∈ keysOver st.dice_sides st.num_dice ↔
        (k.length = st.num_dice ∧
          ∀ c ∈ k, ∃ s, 1 ≤ s ∧ s ≤ st.dice_sides ∧ c = digitChar s)) ∧
      List.Pairwise keyLt (keysOver st.dice_sides st.num_dice) ∧
      (verify st = .ok ↔
        ∀ k ∈ keysOver st.dice_sides st.num_dice, falsy (dictGet d k) = false) ∧
      (∀ k, verify st = .missing k →
        falsy (dictGet d k) = true ∧
          ∃ before after, keysOver st.dice_sides st.num_dice = before ++ k :: after ∧
            ∀ k' ∈ before, falsy (dictGet d k') = false) := by
  have hwe : wordsEmpty st = false := by
    rw [wordsEmpty, hw]
    cases d with
    | nil => exact absurd rfl hne
    | cons a t => rfl
  have hwo : wordsOf st = d := by rw [wordsOf, hw]; rfl
  have hmain : verify st = specFrom d (keysOver st.dice_sides st.num_dice) := by
    rw [verify, verifyFuel, if_neg (by simp [hwe]), hwo]
    rw [verifyDepth_spec st.num_dice st.dice_sides d hs st.num_dice recursionLimit hnd hlim
      [] (by simp)]
    congr 1
    simp
  refine ⟨hmain, fun k => mem_keysOver _ hs _ k, keysOver_sorted _ hs _, ?_, ?_⟩
  · rw [hmain, specFrom]
    cases hf : (keysOver st.dice_sides st.num_dice).find? (fun k => falsy (dictGet d k)) with
    | some k =>
      simp only [hf]
      constructor
      · intro h
        exact absurd h (by simp)
      · intro hall
        have hp := List.find?_some hf
        have hkmem := List.mem_of_find?_eq_some hf
        rw [hall k hkmem] at hp
        exact absurd hp (by simp)
    | none =>
      simp only [hf]
      constructor
      · intro _ k hk
        have := List.find?_eq_none.mp hf k hk
        simpa using this
      · intro _
        trivial
  · intro k hk
    rw [hmain, specFrom] at hk
    cases hf : (keysOver st.dice_sides st.num_dice).find? (fun k => falsy (dictGet d k)) with
    | none =>
      rw [hf] at hk
      exact absurd hk (by simp)
    | some k' =>
      rw [hf] at hk
      obtain rfl : k' = k := by simpa using hk
      obtain ⟨hpk, as, bs, hsplit, hall⟩ := List.find?_eq_some.mp hf
      exact ⟨hpk, as, bs, hsplit, fun x hx => by simpa using hall x hx⟩

/-- Witness for the amended C4 at `stW` (`diceCount = 2`, `diceSides = 6`,
single entry `"11"`): the first unmapped key in lexicographic order is
`"12"`. -/
theorem verify_coverage_witness :
    verify stW = specFrom wordsW (keysOver 6 2) ∧
      (∀ k, k ∈ keysOver 6 2 ↔
        (k.length = 2 ∧ ∀ c ∈ k, ∃ s, 1 ≤ s ∧ s ≤ 6 ∧ c = digitChar s)) ∧
      List.Pairwise keyLt (keysOver 6 2) ∧
      (verify stW = .ok ↔ ∀ k ∈ keysOver 6 2, falsy (dictGet wordsW k) = false) ∧
      (∀ k, verify stW = .missing k →
        falsy (dictGet wordsW k) = true ∧
          ∃ before after, keysOver 6 2 = before ++ k :: after ∧
            ∀ k' ∈ before, falsy (dictGet wordsW k') = false) :=
  verify_coverage stW wordsW rfl (by decide) (by decide) (by decide) (by decide)

/-- C9: for a non-empty mapping with `diceCount ≥ 1` and `diceSides` in
`2..9`, `verify()` terminates with nested `_verify` depth exactly
`diceCount`: a budget of `diceCount` activations suffices (and any larger
budget computes the same result, which is not fuel exhaustion), while a
budget of `diceCount - 1` is exhausted. -/
theorem verify_recursion_depth (st : WordListState) (d : Dict) (hw : st.words = some d)
    (hne : d ≠ []) (hnd : 1 ≤ st.num_dice) (hs2 : 2 ≤ st.dice_sides)
    (hs9 : st.dice_sides ≤ 9) :
    verifyFuel st st.num_dice ≠ .outOfFuel ∧
      (∀ fuel, st.num_dice ≤ fuel → verifyFuel st fuel = verifyFuel st st.num_dice) ∧
      verifyFuel st (st.num_dice - 1) = .outOfFuel := by
  have hwe : wordsEmpty st = false := by
    rw [wordsEmpty, hw]
    cases d with
    | nil => exact absurd rfl hne
    | cons a t => rfl
  have hwo : wordsOf st = d := by rw [wordsOf, hw]; rfl
  have hspec : ∀ fuel, st.num_dice ≤ fuel →
      verifyFuel st fuel
        = specFrom d ((keysOver st.dice_sides st.num_dice).map fun k => [] ++ k) := by
    intro fuel hf
    rw [verifyFuel, if_neg (by simp [hwe]), hwo]
    exact verifyDepth_spec st.num_dice st.dice_sides d hs9 st.num_dice fuel hnd hf []
      (by simp)
  refine ⟨?_, ?_, ?_⟩
  · rw [hspec st.num_dice (le_refl _)]
    exact specFrom_ne_outOfFuel _ _
  · intro fuel hf
    rw [hspec fuel hf, hspec st.num_dice (le_refl _)]
  · rw [verifyFuel, if_neg (by simp [hwe]), hwo]
    by_cases h1 : st.num_dice = 1
    · rw [h1]
      rfl
    · exact verifyDepth_outOfFuel st.num_dice st.dice_sides d hs9 (by omega)
        st.num_dice (st.num_dice - 1) [] (by omega) (by omega) (by simp)

/-- Witness for C9 at `stW` (`diceCount = 2`): budget 2 suffices, any larger
budget agrees, and budget 1 is exhausted. -/
theorem verify_recursion_depth_witness :
    verifyFuel stW 2 ≠ .outOfFuel ∧ verifyFuel stW 5 = verifyFuel stW 2 ∧
      verifyFuel stW 1 = .outOfFuel :=
  ⟨(verify_recursion_depth stW wordsW rfl (by decide) (by decide) (by decide)
      (by decide)).1,
    (verify_recursion_depth stW wordsW rfl (by decide) (by decide) (by decide)
      (by decide)).2.1 5 (by decide),
    (verify_recursion_depth stW wordsW rfl (by decide) (by decide) (by decide)
      (by decide)).2.2⟩
